import Mathlib

/-!
Verification of the enspara smFRET pipeline specification against the code.

The repository's visible code comprises the two CLI stages
(`model_FRET_dyes.py`, `smFRET.py`), the clustering app
(`feature_cluster.py`) and `twofold_symmetric_rmsd.py`.  The numerical
core `enspara.geometry.dyes_from_expt_dist` is referenced by the apps but
its source is not part of the visible tree; where a claim is decided by
that module, the corresponding definition below is modelled from the
spec's own description and is marked as such in its doc comment.

All real-number quantities are modelled over `ℚ` (exact arithmetic);
machine floats do not appear in any claim at the level of the properties
stated.
-/

namespace Enspara

/-! ## ForsterConverter (spec §4.3) -/

/-- Modelled from the spec: `ForsterConverter.efficiency` of
`enspara.geometry.dyes_from_expt_dist` is absent from the visible source;
the spec defines it as the pure function `E = 1 / (1 + (distance/R0)^6)`
whose only failure mode is rejecting non-positive `R0`. -/
def efficiency (distance R0 : ℚ) : Option ℚ :=
  if R0 ≤ 0 then none else some (1 / (1 + (distance / R0) ^ 6))

/-- The value computed in the accepting branch of `efficiency`. -/
def efficiencyVal (distance R0 : ℚ) : ℚ :=
  1 / (1 + (distance / R0) ^ 6)

theorem efficiency_pos (distance R0 : ℚ) (h : 0 < R0) :
    efficiency distance R0 = some (efficiencyVal distance R0) := by
  simp [efficiency, efficiencyVal, not_le.mpr h]

theorem efficiencyVal_nonneg (distance R0 : ℚ) :
    0 ≤ efficiencyVal distance R0 := by
  have h6 : 0 ≤ (distance / R0) ^ 6 := by positivity
  have : (0:ℚ) < 1 + (distance / R0) ^ 6 := by linarith
  unfold efficiencyVal
  positivity

theorem efficiencyVal_le_one (distance R0 : ℚ) :
    efficiencyVal distance R0 ≤ 1 := by
  have h6 : 0 ≤ (distance / R0) ^ 6 := by positivity
  have hpos : (0:ℚ) < 1 + (distance / R0) ^ 6 := by linarith
  unfold efficiencyVal
  rw [div_le_one hpos]
  linarith

theorem efficiencyVal_self (R0 : ℚ) (h : 0 < R0) :
    efficiencyVal R0 R0 = 1 / 2 := by
  unfold efficiencyVal
  rw [div_self (ne_of_gt h)]
  norm_num

theorem efficiencyVal_zero (R0 : ℚ) :
    efficiencyVal 0 R0 = 1 := by
  unfold efficiencyVal
  norm_num

theorem efficiencyVal_antitone (R0 d1 d2 : ℚ) (hR : 0 < R0)
    (h1 : 0 ≤ d1) (h12 : d1 ≤ d2) :
    efficiencyVal d2 R0 ≤ efficiencyVal d1 R0 := by
  have hq1 : 0 ≤ d1 / R0 := div_nonneg h1 (le_of_lt hR)
  have hq12 : d1 / R0 ≤ d2 / R0 := by gcongr
  have hpow : (d1 / R0) ^ 6 ≤ (d2 / R0) ^ 6 := pow_le_pow_left₀ hq1 hq12 6
  have hp1 : (0:ℚ) ≤ (d1 / R0) ^ 6 := by positivity
  have h1pos : (0:ℚ) < 1 + (d1 / R0) ^ 6 := by linarith
  have h2pos : (0:ℚ) < 1 + (d2 / R0) ^ 6 := by linarith
  unfold efficiencyVal
  apply one_div_le_one_div_of_le h1pos
  linarith

/-! ## Stage-1 / stage-2 artifact filenames
(`model_FRET_dyes.py` lines 104–111, `smFRET.py` lines 119–131) -/

/-- `model_FRET_dyes.py` line 108: the probabilities file written for a
residue pair `(i, j)` into the output directory. -/
def stage1ProbsFile (dir : String) (i j : ℕ) : String :=
  dir ++ "/probs_" ++ toString i ++ "_" ++ toString j ++ ".h5"

/-- `model_FRET_dyes.py` line 109: the bin-edges file written for a
residue pair `(i, j)`. -/
def stage1BinEdgesFile (dir : String) (i j : ℕ) : String :=
  dir ++ "/bin_edges_" ++ toString i ++ "_" ++ toString j ++ ".h5"

/-- `smFRET.py` line 119: the title string for a residue pair. -/
def stage2Title (i j : ℕ) : String :=
  toString i ++ "_" ++ toString j

/-- `smFRET.py` line 120: the probabilities file stage 2 reads. -/
def stage2ProbsFile (dir : String) (i j : ℕ) : String :=
  dir ++ "/probs_" ++ stage2Title i j ++ ".h5"

/-- `smFRET.py` line 121: the bin-edges file stage 2 reads. -/
def stage2BinEdgesFile (dir : String) (i j : ℕ) : String :=
  dir ++ "/bin_edges_" ++ stage2Title i j ++ ".h5"

/-- `smFRET.py` line 131: the efficiencies file stage 2 writes. -/
def stage2OutputFile (dir : String) (i j : ℕ) (slowingFactor : ℤ) : String :=
  dir ++ "/FRET_efficiencies_" ++ stage2Title i j ++ "_time_factor_" ++
    toString slowingFactor ++ ".npy"

/-- **C2**: the ForsterConverter efficiency equals `1 / (1 + (d/R0)^6)`;
`efficiency R0 R0 = 1/2` exactly, `efficiency 0 R0 = 1`, the value lies in
`[0, 1]`, for fixed `R0 > 0` it is monotonically decreasing in the
distance, and the only failure mode is rejecting non-positive `R0`. -/
theorem forster_efficiency_spec (d R0 : ℚ) (hd : 0 ≤ d) (hR : 0 < R0) :
    efficiency d R0 = some (1 / (1 + (d / R0) ^ 6)) ∧
    efficiency R0 R0 = some (1 / 2) ∧
    efficiency 0 R0 = some 1 ∧
    (0 ≤ efficiencyVal d R0 ∧ efficiencyVal d R0 ≤ 1) ∧
    (∀ d2, d ≤ d2 → efficiencyVal d2 R0 ≤ efficiencyVal d R0) ∧
    (∀ r : ℚ, r ≤ 0 → efficiency d r = none) := by
  refine ⟨efficiency_pos d R0 hR, ?_, ?_, ⟨efficiencyVal_nonneg d R0,
    efficiencyVal_le_one d R0⟩, fun d2 h12 =>
      efficiencyVal_antitone R0 d d2 hR hd h12, fun r hr => ?_⟩
  · rw [efficiency_pos R0 R0 hR, efficiencyVal_self R0 hR]
  · rw [efficiency_pos 0 R0 hR, efficiencyVal_zero R0]
  · simp [efficiency, hr]

/-- Witness for `forster_efficiency_spec` at `d = 1`, `R0 = 2`. -/
theorem forster_efficiency_spec_witness :
    efficiency 1 2 = some (1 / (1 + ((1:ℚ) / 2) ^ 6)) ∧
    efficiency 2 2 = some (1 / 2) ∧
    efficiency 0 2 = some 1 ∧
    (0 ≤ efficiencyVal 1 2 ∧ efficiencyVal 1 2 ≤ 1) ∧
    (∀ d2, (1:ℚ) ≤ d2 → efficiencyVal d2 2 ≤ efficiencyVal 1 2) ∧
    (∀ r : ℚ, r ≤ 0 → efficiency 1 r = none) :=
  forster_efficiency_spec 1 2 (by norm_num) (by norm_num)

/-! ## PhotonClock (spec §4.2) -/

/-- Modelled from the spec: the cumulative arrival-time sequence of
`PhotonClock.quantize` (the implementation `convert_photon_times` in
`enspara.geometry.dyes_from_expt_dist` is absent from the visible source).
`cumulativeFrom t0 l` is the running sum of the inter-arrival times `l`
started at `t0`. -/
def cumulativeFrom (t0 : ℚ) : List ℚ → List ℚ
  | [] => []
  | t :: rest => (t0 + t) :: cumulativeFrom (t0 + t) rest

/-- Modelled from the spec: cumulative arrival times of one burst. -/
def cumulativeTimes (burst : List ℚ) : List ℚ :=
  cumulativeFrom 0 burst

/-- Modelled from the spec: integer step differences between consecutive
cumulative points after dividing by `lagtime * slowing_factor` and
floor-quantizing. -/
def stepCounts (L f : ℚ) : List ℚ → List ℤ
  | [] => []
  | [_] => []
  | a :: b :: rest => (⌊b / (L * f)⌋ - ⌊a / (L * f)⌋) :: stepCounts L f (b :: rest)

/-- Modelled from the spec: the Burst Step Sequence of one burst. -/
def quantizeBurst (L f : ℚ) (burst : List ℚ) : List ℤ :=
  stepCounts L f (cumulativeTimes burst)

/-- Modelled from the spec: `PhotonClock.quantize` over a burst
collection. -/
def quantize (bursts : List (List ℚ)) (L f : ℚ) : List (List ℤ) :=
  bursts.map (quantizeBurst L f)

/-- Modelled from the spec: the floor-quantized cumulative step counts of
one burst (before differencing). -/
def quantizedCumulative (L f : ℚ) (burst : List ℚ) : List ℤ :=
  (cumulativeTimes burst).map (fun c => ⌊c / (L * f)⌋)

/-- Modelled from the spec: the validated entry point, failing with
`InputError` when an arrival time or `lagtime`/`slowing_factor` is
non-positive. -/
def convertPhotonTimes (bursts : List (List ℚ)) (L f : ℚ) :
    Except String (List (List ℤ)) :=
  if 0 < L ∧ 0 < f ∧ ∀ b ∈ bursts, ∀ t ∈ b, 0 < t then
    .ok (quantize bursts L f)
  else
    .error "InputError"

theorem div_le_div_same_den (a b d : ℚ) (hd : 0 < d) (h : a ≤ b) :
    a / d ≤ b / d := by
  rw [div_le_div_iff₀ hd hd]
  exact mul_le_mul_of_nonneg_right h hd.le

theorem chain_cumulativeFrom (l : List ℚ) (x : ℚ) (h : ∀ t ∈ l, 0 ≤ t) :
    List.Chain' (· ≤ ·) (x :: cumulativeFrom x l) := by
  induction l generalizing x with
  | nil => simp [cumulativeFrom]
  | cons t rest ih =>
      rw [cumulativeFrom, List.chain'_cons]
      refine ⟨by have := h t (by simp); linarith, ih (x + t) ?_⟩
      intro u hu
      exact h u (by simp [hu])

theorem chain_cumulativeTimes (burst : List ℚ)
    (h : ∀ t ∈ burst, 0 ≤ t) :
    List.Chain' (· ≤ ·) (cumulativeTimes burst) :=
  (chain_cumulativeFrom burst 0 h).tail

theorem stepCounts_nonneg (L f : ℚ) (hLf : 0 < L * f) :
    ∀ c : List ℚ, List.Chain' (· ≤ ·) c → ∀ s ∈ stepCounts L f c, 0 ≤ s
  | [], _, s, hs => by simp [stepCounts] at hs
  | [_], _, s, hs => by simp [stepCounts] at hs
  | a :: b :: rest, hc, s, hs => by
      rw [List.chain'_cons] at hc
      simp only [stepCounts, List.mem_cons] at hs
      rcases hs with rfl | hs
      · have hab : a / (L * f) ≤ b / (L * f) :=
          div_le_div_same_den a b (L * f) hLf hc.1
        have := Int.floor_le_floor hab
        omega
      · exact stepCounts_nonneg L f hLf (b :: rest) hc.2 s hs

theorem floor_sub_le_floor_two_mul (u v : ℚ) (huv : u ≤ v) :
    ⌊v⌋ - ⌊u⌋ ≤ ⌊2 * v⌋ - ⌊2 * u⌋ := by
  have h1 : ⌊u⌋ ≤ ⌊v⌋ := Int.floor_le_floor huv
  rcases eq_or_lt_of_le h1 with heq | hlt
  · have : ⌊2 * u⌋ ≤ ⌊2 * v⌋ := Int.floor_le_floor (by linarith)
    omega
  · have hv : ((⌊v⌋ : ℚ)) ≤ v := Int.floor_le v
    have hfv : (2 * ⌊v⌋ : ℤ) ≤ ⌊2 * v⌋ := Int.le_floor.mpr (by push_cast; linarith)
    have hu1 : u < ⌊u⌋ + 1 := Int.lt_floor_add_one u
    have hfu : ⌊2 * u⌋ < 2 * ⌊u⌋ + 2 := Int.floor_lt.mpr (by push_cast; linarith)
    omega

theorem stepCounts_factor_two_le (L : ℚ) (hL : 0 < L) :
    ∀ c : List ℚ, List.Chain' (· ≤ ·) c →
      List.Forall₂ (· ≤ ·) (stepCounts L 2 c) (stepCounts L 1 c)
  | [], _ => by simp [stepCounts]
  | [_], _ => by simp [stepCounts]
  | a :: b :: rest, hc => by
      rw [List.chain'_cons] at hc
      rw [stepCounts, stepCounts, List.forall₂_cons]
      refine ⟨?_, stepCounts_factor_two_le L hL (b :: rest) hc.2⟩
      have hL0 : L ≠ 0 := ne_of_gt hL
      have h2b : b / (L * 1) = 2 * (b / (L * 2)) := by field_simp; ring
      have h2a : a / (L * 1) = 2 * (a / (L * 2)) := by field_simp; ring
      have huv : a / (L * 2) ≤ b / (L * 2) :=
        div_le_div_same_den a b (L * 2) (by linarith) hc.1
      rw [h2b, h2a]
      exact floor_sub_le_floor_two_mul _ _ huv

/-- **C1** counterexample: the claim's inequality direction fails.  For
the burst `[2, 2]` with lag `1`, slowing factor `1` yields the step
sequence `[2]` while slowing factor `2` yields `[1]`, so the factor-1
step counts are not elementwise `≤` the factor-2 step counts. -/
theorem photon_quantize_factor_counterexample :
    ¬ List.Forall₂ (List.Forall₂ (· ≤ ·))
      (quantize [[2, 2]] 1 1) (quantize [[2, 2]] 1 2) := by
  have e1 : quantize [[2, 2]] 1 1 = [[2]] := by
    norm_num [quantize, quantizeBurst, cumulativeTimes, cumulativeFrom, stepCounts]
  have e2 : quantize [[2, 2]] 1 2 = [[1]] := by
    norm_num [quantize, quantizeBurst, cumulativeTimes, cumulativeFrom, stepCounts]
  rw [e1, e2]
  intro h
  have h1 := (List.forall₂_cons.mp h).1
  have h2 := (List.forall₂_cons.mp h1).1
  omega

/-- **C1** (amended): for every burst collection of positive arrival
times and positive lag `L`, the step counts with slowing factor `2` are
elementwise `≤` the step counts with slowing factor `1` (slower kinetics
give fewer or equal steps per interval), and within each burst the
floor-quantized cumulative step counts are non-decreasing as arrival
times accumulate. -/
theorem photon_quantize_monotone (bursts : List (List ℚ)) (L : ℚ)
    (hL : 0 < L) (hpos : ∀ b ∈ bursts, ∀ t ∈ b, 0 < t) :
    List.Forall₂ (List.Forall₂ (· ≤ ·))
      (quantize bursts L 2) (quantize bursts L 1) ∧
    (∀ f : ℚ, 0 < f → ∀ b ∈ bursts,
      List.Chain' (· ≤ ·) (quantizedCumulative L f b)) := by
  constructor
  · unfold quantize
    rw [List.forall₂_map_left_iff, List.forall₂_map_right_iff, List.forall₂_same]
    intro b hb
    exact stepCounts_factor_two_le L hL _
      (chain_cumulativeTimes b (fun t ht => (hpos b hb t ht).le))
  · intro f hf b hb
    unfold quantizedCumulative
    rw [List.chain'_map]
    exact (chain_cumulativeTimes b (fun t ht => (hpos b hb t ht).le)).imp
      (fun _ _ hac => Int.floor_le_floor
        (div_le_div_same_den _ _ (L * f) (mul_pos hL hf) hac))

/-- Witness for `photon_quantize_monotone` at bursts `[[1, 2]]`,
lag `1`. -/
theorem photon_quantize_monotone_witness :
    List.Forall₂ (List.Forall₂ (· ≤ ·))
      (quantize [[1, 2]] 1 2) (quantize [[1, 2]] 1 1) ∧
    (∀ f : ℚ, 0 < f → ∀ b ∈ [[(1:ℚ), 2]],
      List.Chain' (· ≤ ·) (quantizedCumulative 1 f b)) :=
  photon_quantize_monotone [[1, 2]] 1 (by norm_num) (by
    intro b hb t ht
    simp only [List.mem_singleton] at hb
    subst hb
    simp at ht
    rcases ht with rfl | rfl <;> norm_num)

/-- **C6**: converting photon times forms the cumulative arrival-time
sequence, divides by `lagtime * slowing_factor`, and takes floor-quantized
differences of consecutive cumulative points; on valid inputs conversion
succeeds, every step count is a non-negative integer, and a burst whose
photons fall inside one lag interval yields the step count `0`, accepted
rather than rejected. -/
theorem convert_photon_times_spec (bursts : List (List ℚ)) (L f : ℚ)
    (hL : 0 < L) (hf : 0 < f) (hpos : ∀ b ∈ bursts, ∀ t ∈ b, 0 < t) :
    convertPhotonTimes bursts L f = .ok (quantize bursts L f) ∧
    (∀ steps ∈ quantize bursts L f, ∀ s ∈ steps, 0 ≤ s) ∧
    convertPhotonTimes [[1/4, 1/4]] 1 1 = .ok [[0]] := by
  refine ⟨?_, ?_, ?_⟩
  · rw [convertPhotonTimes, if_pos ⟨hL, hf, hpos⟩]
  · intro steps hsteps s hs
    obtain ⟨b, hb, rfl⟩ := List.mem_map.mp hsteps
    exact stepCounts_nonneg L f (mul_pos hL hf) _
      (chain_cumulativeTimes b (fun t ht => (hpos b hb t ht).le)) s hs
  · rw [convertPhotonTimes, if_pos (by norm_num)]
    congr 1
    norm_num [quantize, quantizeBurst, cumulativeTimes, cumulativeFrom, stepCounts]

/-- Witness for `convert_photon_times_spec` at bursts `[[1, 2]]`,
lag `1`, slowing factor `1`. -/
theorem convert_photon_times_spec_witness :
    convertPhotonTimes [[1, 2]] 1 1 = .ok (quantize [[1, 2]] 1 1) ∧
    (∀ steps ∈ quantize [[(1:ℚ), 2]] 1 1, ∀ s ∈ steps, 0 ≤ s) ∧
    convertPhotonTimes [[1/4, 1/4]] 1 1 = .ok [[0]] :=
  convert_photon_times_spec [[1, 2]] 1 1 (by norm_num) (by norm_num) (by
    intro b hb t ht
    simp only [List.mem_singleton] at hb
    subst hb
    simp at ht
    rcases ht with rfl | rfl <;> norm_num)

/-- **C3**: for every residue pair `(i, j)`, the filenames stage 2 reads
from its distance-distribution directory are exactly the filenames stage 1
writes into its output directory, and stage 2's output filename follows
the `FRET_efficiencies_{i}_{j}_time_factor_{slowing_factor}.npy`
convention; hence with the same pair list and directories stage 2
consumes precisely stage 1's artifacts. -/
theorem stage_filenames_agree (distDir outDir : String) (i j : ℕ)
    (slowingFactor : ℤ) :
    stage2ProbsFile distDir i j = stage1ProbsFile distDir i j ∧
    stage2BinEdgesFile distDir i j = stage1BinEdgesFile distDir i j ∧
    stage2OutputFile outDir i j slowingFactor =
      outDir ++ "/FRET_efficiencies_" ++ toString i ++ "_" ++ toString j ++
        "_time_factor_" ++ toString slowingFactor ++ ".npy" := by
  refine ⟨?_, ?_, ?_⟩ <;>
    simp [stage2ProbsFile, stage2BinEdgesFile, stage2OutputFile,
      stage1ProbsFile, stage1BinEdgesFile, stage2Title, String.append_assoc]

/-! ## Stage-2 error behavior (`smFRET.py` lines 116–131) -/

/-- The `smFRET.py` main loop: residue pairs are processed in order; for
each pair the distance-distribution files are loaded (raising an error
when missing or malformed) and, on success, that pair's efficiencies file
is saved before the next pair is processed.  `available p` abstracts
whether pair `p`'s distance-distribution files load successfully.  The
result is the list of pairs whose output file was written (in order),
together with the pair on which loading failed, if any; a `some` error
makes the process exit non-zero. -/
def runStage2 (available : ℕ × ℕ → Bool) :
    List (ℕ × ℕ) → List (ℕ × ℕ) × Option (ℕ × ℕ)
  | [] => ([], none)
  | p :: rest =>
      if available p then
        ((p :: (runStage2 available rest).1), (runStage2 available rest).2)
      else
        ([], some p)

/-- **C4** counterexample: with residue pairs `[(1,2), (3,4)]` where the
distance-distribution files exist for `(1,2)` but are missing for
`(3,4)`, the run fails on `(3,4)` yet the efficiencies output for `(1,2)`
has already been persisted — the failing run does write partial
output. -/
theorem stage2_output_counterexample :
    runStage2 (fun p => decide (p = (1, 2))) [(1, 2), (3, 4)] =
      ([(1, 2)], some (3, 4)) ∧
    ((runStage2 (fun p => decide (p = (1, 2))) [(1, 2), (3, 4)]).1 ≠ []) := by
  constructor
  · rfl
  · intro h
    simp [runStage2] at h

/-- **C4** (amended): when stage 2 fails on a missing or malformed input
for some residue pair, the process exits non-zero with the error reported
immediately — no output is written for the failing pair or for any pair
after it — but the efficiencies arrays of the pairs processed before the
failure have already been persisted: the written list is exactly the
prefix of the pair list that precedes the first failing pair. -/
theorem stage2_error_behavior (available : ℕ × ℕ → Bool)
    (pairs : List (ℕ × ℕ)) :
    ((runStage2 available pairs).2 = none →
      (runStage2 available pairs).1 = pairs) ∧
    (∀ p, (runStage2 available pairs).2 = some p →
      available p = false ∧ p ∉ (runStage2 available pairs).1 ∧
      (∀ q ∈ (runStage2 available pairs).1, available q = true) ∧
      ∃ k, ∃ hk : k < pairs.length,
        pairs.get ⟨k, hk⟩ = p ∧
        (runStage2 available pairs).1 = pairs.take k) := by
  induction pairs with
  | nil => simp [runStage2]
  | cons p rest ih =>
      cases hp : available p with
      | true =>
          simp only [runStage2, hp, if_true]
          constructor
          · intro hnone
            rw [ih.1 hnone]
          · intro q hq
            obtain ⟨hav, hmem, hall, k, hk, hget, htake⟩ := ih.2 q hq
            refine ⟨hav, ?_, ?_, k + 1, by simpa using Nat.succ_lt_succ hk, ?_, ?_⟩
            · intro hmem2
              rcases List.mem_cons.mp hmem2 with rfl | hmem3
              · rw [hp] at hav; exact Bool.true_eq_false.mp hav
              · exact hmem hmem3
            · intro q2 hq2
              rcases List.mem_cons.mp hq2 with rfl | hq3
              · exact hp
              · exact hall q2 hq3
            · simpa using hget
            · simp [htake]
      | false =>
          simp only [runStage2, hp, if_false]
          refine ⟨by simp, ?_⟩
          intro q hq
          obtain rfl : p = q := by simpa using hq
          exact ⟨hp, by simp, by simp, 0, by simp, by simp, by simp⟩

/-- Witness for `stage2_error_behavior`: the run of the counterexample
configuration fails on pair `(3,4)`, which is unavailable, whose output
was not written, while everything written was available and forms the
prefix before the failure. -/
theorem stage2_error_behavior_witness :
    (fun p => decide (p = (1, 2))) (3, 4) = false ∧
    (3, 4) ∉ (runStage2 (fun p => decide (p = (1, 2))) [(1, 2), (3, 4)]).1 ∧
    (∀ q ∈ (runStage2 (fun p => decide (p = (1, 2))) [(1, 2), (3, 4)]).1,
      (fun p => decide (p = (1, 2))) q = true) ∧
    ∃ k, ∃ hk : k < ([(1, 2), (3, 4)] : List (ℕ × ℕ)).length,
      ([(1, 2), (3, 4)] : List (ℕ × ℕ)).get ⟨k, hk⟩ = (3, 4) ∧
      (runStage2 (fun p => decide (p = (1, 2))) [(1, 2), (3, 4)]).1 =
        ([(1, 2), (3, 4)] : List (ℕ × ℕ)).take k :=
  (stage2_error_behavior (fun p => decide (p = (1, 2))) [(1, 2), (3, 4)]).2
    (3, 4) rfl

/-! ## DistanceDistributionBuilder (spec §4.1) -/

/-- Modelled from the spec: the histogram bin index used by
`DistanceDistributionBuilder` (the implementation
`dye_distance_distribution` in `enspara.geometry.dyes_from_expt_dist` is
absent from the visible source).  A sample is assigned to the bin of a
shared equal-width grid containing it, the last bin capturing the upper
edge. -/
def binIndex (lo width : ℚ) (nbins : ℕ) (x : ℚ) : ℕ :=
  min (⌊(x - lo) / width⌋.toNat) (nbins - 1)

/-- Modelled from the spec: per-state bin probabilities — the count of
samples in each bin divided by the total number of samples of the
state. -/
def histProbs (lo width : ℚ) (nbins : ℕ) (samples : List ℚ) : List ℚ :=
  (List.range nbins).map
    (fun b =>
      ((samples.countP (fun x => decide (binIndex lo width nbins x = b)) : ℚ)) /
        samples.length)

/-- Modelled from the spec: the per-state distance distributions, with
the degenerate all-zero case flagged (`true` means the state produced
zero valid dye placements). -/
def dyeDistanceDistribution (samplesPerState : List (List ℚ))
    (lo width : ℚ) (nbins : ℕ) : List (Bool × List ℚ) :=
  samplesPerState.map
    (fun samples => (samples.isEmpty, histProbs lo width nbins samples))

theorem binIndex_lt (lo width : ℚ) (nbins : ℕ) (h : 0 < nbins) (x : ℚ) :
    binIndex lo width nbins x < nbins := by
  have := Nat.min_le_right (⌊(x - lo) / width⌋.toNat) (nbins - 1)
  unfold binIndex
  omega

theorem countP_lt_split (g : ℚ → ℕ) (l : List ℚ) (n : ℕ) :
    l.countP (fun x => decide (g x < n + 1)) =
      l.countP (fun x => decide (g x < n)) +
        l.countP (fun x => decide (g x = n)) := by
  induction l with
  | nil => simp
  | cons a l ih =>
      simp only [List.countP_cons, ih, decide_eq_true_eq]
      split_ifs <;> omega

theorem sum_countP_bins (g : ℚ → ℕ) (l : List ℚ) (n : ℕ) :
    ((List.range n).map
      (fun b => l.countP (fun x => decide (g x = b)))).sum =
      l.countP (fun x => decide (g x < n)) := by
  induction n with
  | zero =>
      simp only [List.range_zero, List.map_nil, List.sum_nil]
      exact (List.countP_eq_zero.mpr (by simp)).symm
  | succ n ih =>
      rw [List.range_succ, List.map_append, List.sum_append, ih,
        countP_lt_split g l n]
      simp

theorem list_sum_map_div (c : ℕ → ℚ) (d : ℚ) (l : List ℕ) :
    (l.map (fun b => c b / d)).sum = (l.map c).sum / d := by
  induction l with
  | nil => simp
  | cons a l ih => simp [ih, add_div]

theorem list_sum_map_cast (c : ℕ → ℕ) (l : List ℕ) :
    (l.map (fun b => ((c b : ℕ) : ℚ))).sum = (((l.map c).sum : ℕ) : ℚ) := by
  induction l with
  | nil => simp
  | cons a l ih => simp [ih]

theorem histProbs_nonneg (lo width : ℚ) (nbins : ℕ) (samples : List ℚ) :
    ∀ p ∈ histProbs lo width nbins samples, 0 ≤ p := by
  intro p hp
  obtain ⟨b, _, rfl⟩ := List.mem_map.mp hp
  exact div_nonneg (Nat.cast_nonneg _) (Nat.cast_nonneg _)

theorem histProbs_sum (lo width : ℚ) (nbins : ℕ) (samples : List ℚ)
    (h : 0 < nbins) (hs : samples ≠ []) :
    (histProbs lo width nbins samples).sum = 1 := by
  unfold histProbs
  rw [list_sum_map_div (fun b =>
      ((samples.countP (fun x => decide (binIndex lo width nbins x = b)) : ℕ) : ℚ)),
    list_sum_map_cast, sum_countP_bins]
  have hall : samples.countP
      (fun x => decide (binIndex lo width nbins x < nbins)) = samples.length := by
    rw [List.countP_eq_length]
    intro x _
    simpa using binIndex_lt lo width nbins h x
  rw [hall]
  have hpos : 0 < samples.length := List.length_pos.mpr hs
  have hlen : (samples.length : ℚ) ≠ 0 :=
    Nat.cast_ne_zero.mpr (Nat.pos_iff_ne_zero.mp hpos)
  exact div_self hlen

theorem histProbs_of_empty (lo width : ℚ) (nbins : ℕ) :
    ∀ p ∈ histProbs lo width nbins [], p = 0 := by
  intro p hp
  obtain ⟨b, _, rfl⟩ := List.mem_map.mp hp
  simp

/-- **C5**: every state's probability entries are non-negative; a
non-degenerate state's entries sum exactly to 1; a state with zero valid
dye placements yields an all-zero vector flagged as degenerate rather
than treated as a valid distribution. -/
theorem dye_distance_distribution_spec (samplesPerState : List (List ℚ))
    (lo width : ℚ) (nbins : ℕ) (h : 0 < nbins) :
    ∀ e ∈ dyeDistanceDistribution samplesPerState lo width nbins,
      (∀ p ∈ e.2, 0 ≤ p) ∧
      (e.1 = false → e.2.sum = 1) ∧
      (e.1 = true → ∀ p ∈ e.2, p = 0) := by
  intro e he
  obtain ⟨samples, _, rfl⟩ := List.mem_map.mp he
  refine ⟨histProbs_nonneg lo width nbins samples, ?_, ?_⟩
  · intro hflag
    have hs : samples ≠ [] := by
      intro hnil
      rw [hnil] at hflag
      simp at hflag
    exact histProbs_sum lo width nbins samples h hs
  · intro hflag
    have hs : samples = [] := by simpa using hflag
    rw [hs]
    exact histProbs_of_empty lo width nbins

/-- Witness for `dye_distance_distribution_spec`: in the run with two
states, one holding samples `[0, 1]` and one degenerate, on a 2-bin grid,
the non-degenerate state's probabilities sum to 1. -/
theorem dye_distance_distribution_spec_witness :
    (histProbs 0 1 2 [0, 1]).sum = 1 :=
  ((dye_distance_distribution_spec [[0, 1], []] 0 1 2 (by norm_num))
    (([0, 1] : List ℚ).isEmpty, histProbs 0 1 2 [0, 1])
    (List.mem_map_of_mem _ (by simp))).2.1 rfl

/-! ## MarkovBurstSampler.advance (spec §4.4) -/

/-- Modelled from the spec: the point-mass distribution over MSM states
concentrated at `s` (the sampler's state before any transition). -/
def pointMass (n : ℕ) (s : Fin n) : Fin n → ℚ :=
  fun t => if t = s then 1 else 0

/-- Modelled from the spec: one categorical transition step — the
distribution after a single draw from the current distribution's
transition rows of `T`. -/
def stepDist (n : ℕ) (T : Fin n → Fin n → ℚ) (p : Fin n → ℚ) : Fin n → ℚ :=
  fun t => ∑ u, p u * T u t

/-- Modelled from the spec: `MarkovBurstSampler.advance` (the sampler of
`enspara.geometry.dyes_from_expt_dist` is absent from the visible
source) — the state distribution after applying the transition matrix
`nSteps` times starting from state `s`. -/
def advance (n : ℕ) (T : Fin n → Fin n → ℚ) (s : Fin n) (nSteps : ℕ) :
    Fin n → ℚ :=
  (stepDist n T)^[nSteps] (pointMass n s)

/-- **C7**: for every MSM state `s` and every transition matrix,
`advance s 0` is an identity: it performs no transition and returns `s`
with probability 1. -/
theorem advance_zero_identity (n : ℕ) (T : Fin n → Fin n → ℚ) (s : Fin n) :
    advance n T s 0 = pointMass n s ∧
    advance n T s 0 s = 1 ∧
    ∀ t, t ≠ s → advance n T s 0 t = 0 := by
  refine ⟨?_, ?_, ?_⟩
  · rw [advance, Function.iterate_zero_apply]
  · rw [advance, Function.iterate_zero_apply, pointMass, if_pos rfl]
  · intro t ht
    rw [advance, Function.iterate_zero_apply, pointMass, if_neg ht]

/-- Witness for `advance_zero_identity` on the 2-state symmetric
matrix at state `0`. -/
theorem advance_zero_identity_witness :
    advance 2 (fun _ _ => 1 / 2) 0 0 0 = 1 ∧
    advance 2 (fun _ _ => 1 / 2) 0 0 1 = 0 :=
  ⟨(advance_zero_identity 2 (fun _ _ => 1 / 2) 0).2.1,
   (advance_zero_identity 2 (fun _ _ => 1 / 2) 0).2.2 1 (by decide)⟩

/-! ## ParallelAggregator (spec §4.5) -/

/-- Modelled from the spec: the work items of `ParallelAggregator.run`
(the parallel driver `sample_FRET_histograms` in
`enspara.geometry.dyes_from_expt_dist` is absent from the visible
source) — each burst tagged with its original index, starting at `i`,
paired with the worker function's result on it. -/
def tagFrom (i : ℕ) (f : α → β) : List α → List (ℕ × β)
  | [] => []
  | a :: l => (i, f a) :: tagFrom (i + 1) f l

/-- Modelled from the spec: the complete tagged result set of a run over
`bursts` — what the workers jointly produce, in some completion order
that is a permutation of this list. -/
def workerResults (f : α → β) (bursts : List α) : List (ℕ × β) :=
  tagFrom 0 f bursts

/-- Modelled from the spec: re-assembly of collected results in original
burst order — position `i` of the output is the result tagged `i`,
regardless of the order in which results were collected. -/
def reassemble (n : ℕ) (collected : List (ℕ × β)) : List (Option β) :=
  (List.range n).map
    (fun i => (collected.find? (fun r => r.1 == i)).map Prod.snd)

theorem mem_tagFrom (f : α → β) :
    ∀ (l : List α) (i : ℕ) (r : ℕ × β), r ∈ tagFrom i f l →
      ∃ j, ∃ hj : j < l.length, r.1 = i + j ∧ r.2 = f (l.get ⟨j, hj⟩)
  | [], _, r, hr => by simp [tagFrom] at hr
  | a :: l, i, r, hr => by
      rw [tagFrom, List.mem_cons] at hr
      rcases hr with rfl | hr
      · exact ⟨0, by simp, by simp, by simp⟩
      · obtain ⟨j, hj, h1, h2⟩ := mem_tagFrom f l (i + 1) r hr
        exact ⟨j + 1, by simpa using Nat.succ_lt_succ hj, by omega, by simpa using h2⟩

theorem tagFrom_mem (f : α → β) :
    ∀ (l : List α) (i : ℕ) (j : ℕ) (hj : j < l.length),
      (i + j, f (l.get ⟨j, hj⟩)) ∈ tagFrom i f l
  | [], _, j, hj => by simp at hj
  | a :: l, i, 0, hj => by simp [tagFrom]
  | a :: l, i, j + 1, hj => by
      rw [tagFrom, List.mem_cons]
      right
      have := tagFrom_mem f l (i + 1) j (by simpa using Nat.lt_of_succ_lt_succ hj)
      have harith : i + 1 + j = i + (j + 1) := by omega
      rw [harith] at this
      simpa using this

theorem find_in_collected (f : α → β) (bursts : List α)
    (collected : List (ℕ × β))
    (hperm : collected.Perm (workerResults f bursts))
    (m : ℕ) (hm : m < bursts.length) :
    (collected.find? (fun r => r.1 == m)).map Prod.snd =
      some (f (bursts.get ⟨m, hm⟩)) := by
  have hmem : (m, f (bursts.get ⟨m, hm⟩)) ∈ collected := by
    rw [hperm.mem_iff]
    have := tagFrom_mem f bursts 0 m hm
    simpa using this
  have hsome : (collected.find? (fun r => r.1 == m)).isSome := by
    rw [List.find?_isSome]
    exact ⟨_, hmem, by simp⟩
  obtain ⟨r, hr⟩ := Option.isSome_iff_exists.mp hsome
  have hkey : r.1 = m := by
    have := List.find?_some hr
    simpa using this
  have hrc : r ∈ collected := List.mem_of_find?_eq_some hr
  have hrw : r ∈ workerResults f bursts := hperm.mem_iff.mp hrc
  obtain ⟨j, hj, h1, h2⟩ := mem_tagFrom f bursts 0 r hrw
  have hjm : j = m := by omega
  subst hjm
  rw [hr]
  simp [h2]

/-- **C8**: the aggregated per-burst results are determined by the bursts
and the worker function alone — any two collected result sets that are
permutations of the workers' tagged output (different worker counts,
different completion orders) re-assemble to the same list, namely the
per-burst results in original input-burst order. -/
theorem aggregation_order_independent (f : α → β) (bursts : List α)
    (c1 c2 : List (ℕ × β))
    (h1 : c1.Perm (workerResults f bursts))
    (h2 : c2.Perm (workerResults f bursts)) :
    reassemble bursts.length c1 = (bursts.map f).map some ∧
    reassemble bursts.length c1 = reassemble bursts.length c2 := by
  have key : ∀ c : List (ℕ × β), c.Perm (workerResults f bursts) →
      reassemble bursts.length c = (bursts.map f).map some := by
    intro c hc
    apply List.ext_get
    · simp [reassemble]
    · intro m hm1 hm2
      have hm : m < bursts.length := by simpa [reassemble] using hm1
      have := find_in_collected f bursts c hc m hm
      simp only [reassemble, List.get_eq_getElem, List.getElem_map,
        List.getElem_range]
      rw [this]
      simp [List.get_eq_getElem]
  exact ⟨key c1 h1, (key c1 h1).trans (key c2 h2).symm⟩

/-- Witness for `aggregation_order_independent`: two bursts, one
collection in order and one reversed (as from a different completion
order or worker count). -/
theorem aggregation_order_independent_witness :
    reassemble ([10, 20] : List ℕ).length
        (workerResults (fun x => x + 1) [10, 20]) =
      (([10, 20] : List ℕ).map (fun x => x + 1)).map some ∧
    reassemble ([10, 20] : List ℕ).length
        (workerResults (fun x => x + 1) [10, 20]) =
      reassemble ([10, 20] : List ℕ).length
        (workerResults (fun x => x + 1) [10, 20]).reverse :=
  aggregation_order_independent (fun x => x + 1) [10, 20]
    (workerResults (fun x => x + 1) [10, 20])
    (workerResults (fun x => x + 1) [10, 20]).reverse
    (List.Perm.refl _) (List.reverse_perm _)

/-! ## twofold_symmetric_rmsd (`twofold_symmetric_rmsd.py`) -/

/-- `twofold_symmetric_rmsd.py` line 31: `splitpoint = int(n_atoms/2)`. -/
def splitpoint (nAtoms : ℕ) : ℕ := nAtoms / 2

/-- `twofold_symmetric_rmsd.py` line 32: `all_inds = np.arange(n_atoms)`. -/
def allInds (nAtoms : ℕ) : List ℕ := List.range nAtoms

/-- `twofold_symmetric_rmsd.py` lines 33–34: the reference atom indices
with the two halves swapped —
`hstack((arange(splitpoint, n_atoms), arange(0, splitpoint)))`. -/
def swapInds (nAtoms : ℕ) : List ℕ :=
  List.range' (splitpoint nAtoms) (nAtoms - splitpoint nAtoms) ++
    List.range (splitpoint nAtoms)

/-- `twofold_symmetric_rmsd.py` lines 35–38: with the two per-frame RMSD
arrays returned by the external `md.rmsd` calls (direct, and with the
reference indices swapped) supplied as inputs, the result is the
per-frame minimum of the two. -/
def twofold_symmetric_rmsd (directRmsd swappedRmsd : List ℚ) : List ℚ :=
  List.zipWith min directRmsd swappedRmsd

theorem zipWith_min_le_left :
    ∀ l1 l2 : List ℚ, l1.length = l2.length →
      List.Forall₂ (· ≤ ·) (List.zipWith min l1 l2) l1
  | [], [], _ => List.Forall₂.nil
  | [], _ :: _, h => by simp at h
  | _ :: _, [], h => by simp at h
  | a :: l1, b :: l2, h => by
      rw [List.zipWith_cons_cons, List.forall₂_cons]
      exact ⟨min_le_left a b, zipWith_min_le_left l1 l2 (by simpa using h)⟩

/-- **C9**: the result has one entry per frame, each entry is the minimum
of the direct RMSD and the swapped-reference RMSD for that frame (hence
`≤` the direct `md.rmsd` value), the swapped index list rotates the atom
indices at splitpoint `⌊nAtoms/2⌋`, and for an odd atom count the two
swapped halves have the unequal sizes `⌊nAtoms/2⌋` and `⌈nAtoms/2⌉`. -/
theorem twofold_symmetric_rmsd_spec (directRmsd swappedRmsd : List ℚ)
    (nAtoms : ℕ) (hlen : directRmsd.length = swappedRmsd.length) :
    (twofold_symmetric_rmsd directRmsd swappedRmsd).length =
      directRmsd.length ∧
    List.Forall₂ (· ≤ ·) (twofold_symmetric_rmsd directRmsd swappedRmsd)
      directRmsd ∧
    (∀ i, ∀ h1 : i < directRmsd.length, ∀ h2 : i < swappedRmsd.length,
      ∀ h3 : i < (twofold_symmetric_rmsd directRmsd swappedRmsd).length,
      (twofold_symmetric_rmsd directRmsd swappedRmsd).get ⟨i, h3⟩ =
        min (directRmsd.get ⟨i, h1⟩) (swappedRmsd.get ⟨i, h2⟩)) ∧
    (swapInds nAtoms).length = nAtoms ∧
    (List.range' (splitpoint nAtoms) (nAtoms - splitpoint nAtoms)).length =
      nAtoms - splitpoint nAtoms ∧
    (List.range (splitpoint nAtoms)).length = splitpoint nAtoms ∧
    (Odd nAtoms →
      splitpoint nAtoms ≠ nAtoms - splitpoint nAtoms ∧
      splitpoint nAtoms = nAtoms / 2 ∧
      nAtoms - splitpoint nAtoms = (nAtoms + 1) / 2) := by
  have hsp : splitpoint nAtoms ≤ nAtoms := Nat.div_le_self nAtoms 2
  refine ⟨?_, zipWith_min_le_left directRmsd swappedRmsd hlen, ?_, ?_, ?_, ?_, ?_⟩
  · rw [twofold_symmetric_rmsd, List.length_zipWith, hlen, Nat.min_self]
  · intro i h1 h2 h3
    simp [twofold_symmetric_rmsd, List.get_eq_getElem, List.getElem_zipWith]
  · rw [swapInds, List.length_append, List.length_range', List.length_range]
    omega
  · exact List.length_range' _ _ _
  · exact List.length_range _
  · intro hodd
    rw [Nat.odd_iff] at hodd
    unfold splitpoint
    omega

/-- Witness for `twofold_symmetric_rmsd_spec` on two frames with an
odd atom count of 5. -/
theorem twofold_symmetric_rmsd_spec_witness :
    (twofold_symmetric_rmsd [1, 3] [2, 1]).length =
      ([1, 3] : List ℚ).length ∧
    List.Forall₂ (· ≤ ·) (twofold_symmetric_rmsd [1, 3] [2, 1])
      ([1, 3] : List ℚ) ∧
    (∀ i, ∀ h1 : i < ([1, 3] : List ℚ).length,
      ∀ h2 : i < ([2, 1] : List ℚ).length,
      ∀ h3 : i < (twofold_symmetric_rmsd [1, 3] [2, 1]).length,
      (twofold_symmetric_rmsd [1, 3] [2, 1]).get ⟨i, h3⟩ =
        min (([1, 3] : List ℚ).get ⟨i, h1⟩) (([2, 1] : List ℚ).get ⟨i, h2⟩)) ∧
    (swapInds 5).length = 5 ∧
    (List.range' (splitpoint 5) (5 - splitpoint 5)).length = 5 - splitpoint 5 ∧
    (List.range (splitpoint 5)).length = splitpoint 5 ∧
    (Odd 5 →
      splitpoint 5 ≠ 5 - splitpoint 5 ∧
      splitpoint 5 = 5 / 2 ∧
      5 - splitpoint 5 = (5 + 1) / 2) :=
  twofold_symmetric_rmsd_spec [1, 3] [2, 1] 5 (by simp)

/-! ## feature_cluster argument processing (`feature_cluster.py`) -/

/-- The closed enumeration of what `--cluster-distance` resolves to:
either one of the two metric functions, or the raw unresolved string. -/
inductive ClusterMetric where
  | euclidean : ClusterMetric
  | manhattan : ClusterMetric
  | raw : String → ClusterMetric
deriving DecidableEq

/-- Python's `str.lower()` as used by `process_command_line`, embedded
as a structurally computable character map. -/
def lowerStr (s : String) : String :=
  String.mk (s.data.map Char.toLower)

/-- `feature_cluster.py` lines 41–44: a case-insensitive `'euclidean'`
or `'manhattan'` is replaced by the corresponding metric function; any
other string is left untouched as the raw string. -/
def resolveClusterDistance (s : String) : ClusterMetric :=
  if lowerStr s = "euclidean" then ClusterMetric.euclidean
  else if lowerStr s = "manhattan" then ClusterMetric.manhattan
  else ClusterMetric.raw s

/-- `feature_cluster.py` lines 41–48: the post-parse processing of
`process_command_line` — metric resolution (which never fails), then the
assertion that the algorithm is case-insensitively `'khybrid'`, raising
`AssertionError` otherwise. -/
def processClusterArgs (clusterDistance clusterAlgorithm : String) :
    Except String ClusterMetric :=
  let metric := resolveClusterDistance clusterDistance
  if lowerStr clusterAlgorithm = "khybrid" then Except.ok metric
  else Except.error "AssertionError"

/-- **C10**: `--cluster-distance` equal case-insensitively to
`'euclidean'` or `'manhattan'` resolves to the corresponding metric; any
other string is silently left as the raw unresolved string with no error
at parse time, while any `--cluster-algorithm` other than
case-insensitive `'khybrid'` makes processing fail with
`AssertionError`. -/
theorem feature_cluster_args_spec (d a : String) :
    (lowerStr d = "euclidean" →
      resolveClusterDistance d = ClusterMetric.euclidean) ∧
    (lowerStr d = "manhattan" →
      resolveClusterDistance d = ClusterMetric.manhattan) ∧
    (lowerStr d ≠ "euclidean" → lowerStr d ≠ "manhattan" →
      resolveClusterDistance d = ClusterMetric.raw d) ∧
    (lowerStr a = "khybrid" →
      processClusterArgs d a = Except.ok (resolveClusterDistance d)) ∧
    (lowerStr a ≠ "khybrid" →
      processClusterArgs d a = Except.error "AssertionError") := by
  refine ⟨?_, ?_, ?_, ?_, ?_⟩
  · intro h
    rw [resolveClusterDistance, if_pos h]
  · intro h
    rw [resolveClusterDistance, if_neg (by rw [h]; decide), if_pos h]
  · intro h1 h2
    rw [resolveClusterDistance, if_neg h1, if_neg h2]
  · intro h
    rw [processClusterArgs]
    simp only [h, if_pos]
  · intro h
    rw [processClusterArgs]
    simp only [if_neg h]

/-- Witness for `feature_cluster_args_spec`: `'Manhattan'` resolves to
the manhattan metric and a non-`khybrid` algorithm string fails with
`AssertionError`. -/
theorem feature_cluster_args_spec_witness :
    resolveClusterDistance "Manhattan" = ClusterMetric.manhattan ∧
    processClusterArgs "cosine" "kmedoids" = Except.error "AssertionError" :=
  ⟨(feature_cluster_args_spec "Manhattan" "kmedoids").2.1 (by decide),
   (feature_cluster_args_spec "cosine" "kmedoids").2.2.2.2 (by decide)⟩

end Enspara
